import Mathlib

/-!
Verification development for the `ignorance` repository (gitignore-style
directory walking).  The source of truth is `src/ignorance/git.py`; the
companion `utils` module (the `IgnoreRule` class and the glob-fragment
translator) is not part of the sources, so those two pieces are modelled
from the specification, as flagged by their doc comments.

Paths are modelled as lists of path segments (`List String`); the empty
list stands for the empty string (which is falsy in Python).  Python
exceptions are modelled by the `PyErr` type and `Except`.
-/

namespace Ignorance

/-- The Python exceptions that `git.py` can raise. -/
inductive PyErr where
  | valueError (msg : String)
  | indexError
  | attributeError
deriving DecidableEq, Repr

/-- Whitespace characters stripped by Python's `str.strip` (ASCII portion). -/
def isPySpace (c : Char) : Bool :=
  c = ' ' || c = '\t' || c = '\n' || c = '\r' || c = '\x0b' || c = '\x0c'

/-- Python `str.lstrip()` on a character list. -/
def lstripChars (s : List Char) : List Char := s.dropWhile isPySpace

/-- Python `str.rstrip()` on a character list. -/
def rstripChars (s : List Char) : List Char := (s.reverse.dropWhile isPySpace).reverse

/-- Python `str.strip()` on a character list. -/
def stripChars (s : List Char) : List Char := rstripChars (lstripChars s)

/-- `pattern.find('***') > -1`: does the text contain three consecutive asterisks? -/
def hasTripleStar : List Char → Bool
  | '*' :: '*' :: '*' :: _ => true
  | _ :: rest => hasTripleStar rest
  | [] => false

/-- The double-asterisk validation loop of `rule_from_pattern` (git.py lines
177-182): scan the occurrences of `**` left to right (non-overlapping, as
`re.finditer` does); an occurrence is acceptable when it is at the very
start, at the very end, or bounded by `/` on both sides.  `prev` is the
character just before the scan position (`none` at position 0). -/
def starStarOk : Option Char → List Char → Bool
  | _, [] => true
  | prev, '*' :: '*' :: rest2 =>
      (prev.isNone || rest2.isEmpty ||
        (prev == some '/' && rest2.head? == some '/')) &&
      starStarOk (some '*') rest2
  | _, c1 :: rest => starStarOk (some c1) rest

/-- Splits a character-class body at its closing `]`, returning the class
body and the remainder of the pattern; `none` when the class is unterminated. -/
def spanClose : List Char → Option (List Char × List Char)
  | [] => none
  | c :: rest =>
    if c = ']' then some ([], rest)
    else
      match spanClose rest with
      | some (body, r) => some (c :: body, r)
      | none => none

theorem spanClose_length_lt :
    ∀ (l body r : List Char), spanClose l = some (body, r) → r.length < l.length := by
  intro l
  induction l with
  | nil => intro body r h; simp [spanClose] at h
  | cons c rest ih =>
    intro body r h
    rw [spanClose] at h
    by_cases hc : c = ']'
    · rw [if_pos hc] at h
      simp only [Option.some.injEq, Prod.mk.injEq] at h
      rw [← h.2]
      simp
    · rw [if_neg hc] at h
      revert h
      match hsc : spanClose rest with
      | some (b2, r2) =>
        intro h
        simp only [Option.some.injEq, Prod.mk.injEq] at h
        have := ih b2 r2 hsc
        rw [← h.2]
        simp
        omega
      | none => intro h; simp at h

/-- Character-class membership for `[...]` glob classes: plain characters and
`a-z` style ranges. -/
def charInClass : List Char → Char → Bool
  | a :: '-' :: b :: rest, c => (a ≤ c && c ≤ b) || charInClass rest c
  | a :: rest, c => a == c || charInClass rest c
  | [], _ => false

/-- The recursion of `segGlob` with explicit fuel to keep it structural
(so that it evaluates inside the kernel); every recursive call shrinks
`p.length + s.length`, so the fuel `segGlob` supplies is never exhausted
(`segGlobF_fuel_stable`). -/
def segGlobF : Nat → List Char → List Char → Bool
  | 0, _, _ => false
  | _ + 1, [], s => s.isEmpty
  | fuel + 1, c :: ps, [] =>
      if c = '*' then segGlobF fuel ps [] else false
  | fuel + 1, c :: ps, ch :: cs =>
      if c = '*' then
        segGlobF fuel ps (ch :: cs) || (decide (ch ≠ '/') && segGlobF fuel (c :: ps) cs)
      else if c = '?' then decide (ch ≠ '/') && segGlobF fuel ps cs
      else if c = '[' then
        (match spanClose ps with
         | none => decide (ch = '[') && segGlobF fuel ps cs
         | some (body, rest) =>
             (match body with
              | '!' :: items => charInClass items ch == false
              | _ => charInClass body ch) && segGlobF fuel rest cs)
      else decide (c = ch) && segGlobF fuel ps cs

/-- Modelled from the spec: single-segment glob matching as performed by the
external glob-fragment-to-regex capability of the missing `utils` module
(`fnmatch_pathname_to_regex`).  `*` and `?` match within one segment only
(never `/`), and `[...]` follows standard glob semantics with an optional
leading `!` negating the class; an unterminated `[` is taken literally. -/
def segGlob (p s : List Char) : Bool :=
  segGlobF (p.length + s.length + 1) p s

/-- The recursion of `fragSegsMatch`, with explicit fuel as for `segGlobF`. -/
def fragSegsMatchF : Nat → List String → List String → Bool
  | 0, _, _ => false
  | _ + 1, [], segs => segs.isEmpty
  | fuel + 1, p :: ps, [] =>
      if p = "**" then fragSegsMatchF fuel ps [] else false
  | fuel + 1, p :: ps, sg :: rest =>
      if p = "**" then
        fragSegsMatchF fuel ps (sg :: rest) || fragSegsMatchF fuel (p :: ps) rest
      else segGlob p.data sg.data && fragSegsMatchF fuel ps rest

/-- Modelled from the spec: matching a slash-split glob fragment against a
sequence of path segments.  A `**` fragment segment spans any number of
segments (the spec's "match at any depth"); every other fragment segment
must match exactly one path segment via `segGlob`. -/
def fragSegsMatch (ps segs : List String) : Bool :=
  fragSegsMatchF (ps.length + segs.length + 1) ps segs

/-- Python `str.split('/')` on a character list, used to split a stored glob
fragment into its segments. -/
def splitSlashAux : List Char → List Char → List String
  | [], acc => [String.mk acc.reverse]
  | '/' :: rest, acc => String.mk acc.reverse :: splitSlashAux rest []
  | c :: rest, acc => splitSlashAux rest (c :: acc)

/-- Splits a string at `/` separators (like Python `str.split('/')`). -/
def splitSlash (s : String) : List String := splitSlashAux s.data []

/-- The fuel of `segGlobF` is irrelevant once it exceeds the combined length
of pattern and candidate: the fuel `segGlob` supplies never runs out. -/
theorem segGlobF_fuel_stable :
    ∀ f1 f2 (p s : List Char), p.length + s.length < f1 → p.length + s.length < f2 →
      segGlobF f1 p s = segGlobF f2 p s := by
  intro f1
  induction f1 using Nat.strong_induction_on with
  | _ f1 ih =>
    intro f2 p s h1 h2
    rcases f1 with _ | fp1
    · omega
    rcases f2 with _ | fp2
    · omega
    cases p with
    | nil => rfl
    | cons c ps =>
      cases s with
      | nil =>
        simp only [segGlobF]
        simp only [List.length_cons] at h1 h2
        rw [ih fp1 (by (try simp only [List.length_cons, List.length_nil]); omega) fp2 ps [] (by (try simp only [List.length_cons, List.length_nil]); omega) (by (try simp only [List.length_cons, List.length_nil]); omega)]
      | cons ch cs =>
        simp only [segGlobF]
        simp only [List.length_cons] at h1 h2
        by_cases hc : c = '*'
        · rw [if_pos hc, if_pos hc,
            ih fp1 (by (try simp only [List.length_cons, List.length_nil]); omega) fp2 ps (ch :: cs) (by (try simp only [List.length_cons, List.length_nil]); omega) (by (try simp only [List.length_cons, List.length_nil]); omega),
            ih fp1 (by (try simp only [List.length_cons, List.length_nil]); omega) fp2 (c :: ps) cs (by (try simp only [List.length_cons, List.length_nil]); omega) (by (try simp only [List.length_cons, List.length_nil]); omega)]
        · rw [if_neg hc, if_neg hc]
          by_cases hq : c = '?'
          · rw [if_pos hq, if_pos hq,
              ih fp1 (by (try simp only [List.length_cons, List.length_nil]); omega) fp2 ps cs (by (try simp only [List.length_cons, List.length_nil]); omega) (by (try simp only [List.length_cons, List.length_nil]); omega)]
          · rw [if_neg hq, if_neg hq]
            by_cases hb : c = '['
            · rw [if_pos hb, if_pos hb]
              cases hsp : spanClose ps with
              | none =>
                simp only [hsp]
                rw [ih fp1 (by (try simp only [List.length_cons, List.length_nil]); omega) fp2 ps cs (by (try simp only [List.length_cons, List.length_nil]); omega) (by (try simp only [List.length_cons, List.length_nil]); omega)]
              | some v =>
                rcases v with ⟨body, rest⟩
                have hrl := spanClose_length_lt ps body rest hsp
                simp only [hsp]
                rw [ih fp1 (by (try simp only [List.length_cons, List.length_nil]); omega) fp2 rest cs (by (try simp only [List.length_cons, List.length_nil]); omega) (by (try simp only [List.length_cons, List.length_nil]); omega)]
            · rw [if_neg hb, if_neg hb,
                ih fp1 (by (try simp only [List.length_cons, List.length_nil]); omega) fp2 ps cs (by (try simp only [List.length_cons, List.length_nil]); omega) (by (try simp only [List.length_cons, List.length_nil]); omega)]

/-- The fuel of `fragSegsMatchF` is irrelevant once it exceeds the combined
length of fragment and path segments: the fuel `fragSegsMatch` supplies
never runs out. -/
theorem fragSegsMatchF_fuel_stable :
    ∀ f1 f2 (ps segs : List String), ps.length + segs.length < f1 →
      ps.length + segs.length < f2 →
      fragSegsMatchF f1 ps segs = fragSegsMatchF f2 ps segs := by
  intro f1
  induction f1 using Nat.strong_induction_on with
  | _ f1 ih =>
    intro f2 ps segs h1 h2
    rcases f1 with _ | fp1
    · omega
    rcases f2 with _ | fp2
    · omega
    cases ps with
    | nil => rfl
    | cons p rest =>
      cases segs with
      | nil =>
        simp only [fragSegsMatchF]
        simp only [List.length_cons] at h1 h2
        rw [ih fp1 (by (try simp only [List.length_cons, List.length_nil]); omega) fp2 rest [] (by (try simp only [List.length_cons, List.length_nil]); omega) (by (try simp only [List.length_cons, List.length_nil]); omega)]
      | cons sg sgs =>
        simp only [fragSegsMatchF]
        simp only [List.length_cons] at h1 h2
        by_cases hp : p = "**"
        · rw [if_pos hp, if_pos hp,
            ih fp1 (by (try simp only [List.length_cons, List.length_nil]); omega) fp2 rest (sg :: sgs) (by (try simp only [List.length_cons, List.length_nil]); omega) (by (try simp only [List.length_cons, List.length_nil]); omega),
            ih fp1 (by (try simp only [List.length_cons, List.length_nil]); omega) fp2 (p :: rest) sgs (by (try simp only [List.length_cons, List.length_nil]); omega) (by (try simp only [List.length_cons, List.length_nil]); omega)]
        · rw [if_neg hp, if_neg hp,
            ih fp1 (by (try simp only [List.length_cons, List.length_nil]); omega) fp2 rest sgs (by (try simp only [List.length_cons, List.length_nil]); omega) (by (try simp only [List.length_cons, List.length_nil]); omega)]


/-- The compiled representation of one ignore pattern, mirroring the
constructor call at git.py lines 206-213.  The `regex` field is modelled
from the spec: the code stores the output of the external
`fnmatch_pathname_to_regex` capability (prefixed with `^` when anchored);
here it holds the processed glob fragment itself, which `matchPath`
interprets directly, with anchoring applied via the `anchored` flag. -/
structure IgnoreRule where
  pattern : String
  regex : String
  negation : Bool
  directory_only : Bool
  anchored : Bool
  base_path : Option (List String)
  source : Option (String × Option Nat)
deriving DecidableEq, Repr

/-- Modelled from the spec: the missing `utils` module's `IgnoreRule.match`.
The candidate path is taken relative to the rule's declaring directory when
one is stored; an anchored rule must match from the very start of that
relative path (the code's `^` regex prefix — it may stop at any segment
boundary, as a regex search does), while an unanchored rule may match any
trailing sequence of path segments. -/
def IgnoreRule.matchPath (r : IgnoreRule) (path : List String) : Bool :=
  let relp :=
    match r.base_path with
    | some bp => if bp.isPrefixOf path then path.drop bp.length else path
    | none => path
  let frag := splitSlash r.regex
  if r.anchored then
    (List.range (relp.length + 1)).any fun k => fragSegsMatch frag (relp.take k)
  else
    (List.range (relp.length + 1)).any fun k => fragSegsMatch frag (relp.drop k)

/-- The data extracted from a pattern by the body of `rule_from_pattern`
(git.py lines 160-205): the processed glob fragment and the three flags. -/
structure PatParts where
  frag : List Char
  negation : Bool
  directory_only : Bool
  anchored : Bool
deriving DecidableEq, Repr

/-- git.py lines 170-174: strip one leading `!`, recording negation. -/
def stripBang : List Char → Bool × List Char
  | '!' :: rest => (true, rest)
  | s => (false, s)

/-- git.py lines 169-205: the part of `rule_from_pattern` that runs after a
leading `!` has been stripped (`negation` records whether one was).  The
`.error .indexError` cases are the points where the Python code indexes
into a string that can be empty (`pattern[-1]` at line 188, `pattern[0]`
at lines 194 and 197, `pattern[1]` at line 194, `pattern[-1]` at line 199). -/
def afterBang (negation : Bool) (p1 : List Char) : Except PyErr (Option PatParts) :=
  if starStarOk none p1 = false then .ok none
  else if rstripChars p1 = ['/'] then .ok none
  else
    match p1.getLast? with
    | none => .error .indexError
    | some lastc =>
      let directory_only := lastc = '/'
      let anchored := decide ('/' ∈ p1.dropLast)
      let p2 := match p1 with | '/' :: rest => rest | _ => p1
      match p2 with
      | [] => .error .indexError
      | c0 :: rest0 =>
        let step : Except PyErr (List Char × Bool) :=
          if c0 = '*' then
            match rest0 with
            | [] => .error .indexError
            | c1 :: rest1 =>
              if c1 = '*' then .ok (rest1, false) else .ok (p2, anchored)
          else .ok (p2, anchored)
        match step with
        | .error e => .error e
        | .ok (s3, anchored2) =>
          match s3 with
          | [] => .error .indexError
          | c3 :: rest3 =>
            let s4 := if c3 = '/' then rest3 else s3
            match s4.getLast? with
            | none => .error .indexError
            | some l4 =>
              let s5 := if l4 = '/' then s4.dropLast else s4
              .ok (some ⟨s5, negation, directory_only, anchored2⟩)

/-- git.py lines 160-205: pattern validation and processing of
`rule_from_pattern`, on the pattern's character list. -/
def compilePattern (s : List Char) : Except PyErr (Option PatParts) :=
  if stripChars s = [] then .ok none
  else if s.head? = some '#' then .ok none
  else if hasTripleStar s then .ok none
  else afterBang (stripBang s).1 (stripBang s).2

/-- git.py lines 148-214 (`rule_from_pattern`).  `abspath` stands for the
external `os.path.abspath`; a supplied `base_path` is Python-truthy only
when nonempty, and only then is the absoluteness check performed and the
path stored on the rule. -/
def rule_from_pattern (abspath : List String → List String) (pattern : String)
    (base_path : Option (List String)) (source : Option (String × Option Nat)) :
    Except PyErr (Option IgnoreRule) :=
  let bpBad : Bool :=
    match base_path with
    | some bp => !bp.isEmpty && decide (abspath bp ≠ bp)
    | none => false
  if bpBad then .error (.valueError "base_path must be absolute")
  else
    match compilePattern pattern.data with
    | .error e => .error e
    | .ok none => .ok none
    | .ok (some parts) =>
        .ok (some {
          pattern := pattern
          regex := String.mk parts.frag
          negation := parts.negation
          directory_only := parts.directory_only
          anchored := parts.anchored
          base_path :=
            match base_path with
            | some bp => if bp.isEmpty then none else some bp
            | none => none
          source := source })

/-- The line loop of `rules_from_file` (git.py lines 136-144): compile each
line with a 1-based line counter, keeping the rules and dropping the
`None` results; an exception from any line aborts the whole read. -/
def rulesLoop (abspath : List String → List String) (full_path : String)
    (bp : List String) : Nat → List String → Except PyErr (List IgnoreRule)
  | _, [] => .ok []
  | n, line :: rest =>
      match rule_from_pattern abspath line (some (abspath bp)) (some (full_path, some n)) with
      | .error e => .error e
      | .ok r =>
          match rulesLoop abspath full_path bp (n + 1) rest with
          | .error e => .error e
          | .ok rs => .ok (match r with | some rule => rule :: rs | none => rs)

/-- git.py lines 133-145 (`rules_from_file`): `lines` are the lines of the
ignore file at `base_path ++ [filename]`, already split with their trailing
newline removed (the code's `line.rstrip('\n')`). -/
def rules_from_file (abspath : List String → List String) (filename : String)
    (base_path : List String) (lines : List String) : Except PyErr (List IgnoreRule) :=
  rulesLoop abspath (String.intercalate "/" (base_path ++ [filename])) base_path 1 lines

/-- One evaluation pass of the matching loops in `walk` (git.py lines
106-112 for directories, 117-125 for files, merged via `isDir`): `included`
starts `true`; a `directory_only` rule is skipped for files (line 121-122);
otherwise, when the state-toggle guard `included != rule.negation` passes
and the rule matches, `included` is flipped (lines 110-112 / 123-125).  The
chain may contain `none` entries (Python `None` left in the overrides and
ignore-completely lists); touching one raises `AttributeError`. -/
def includedLoop (isDir : Bool) (path : List String) :
    Bool → List (Option IgnoreRule) → Except PyErr Bool
  | inc, [] => .ok inc
  | _, none :: _ => .error .attributeError
  | inc, some r :: rest =>
      if r.directory_only && !isDir then includedLoop isDir path inc rest
      else
        includedLoop isDir path
          (if (inc != r.negation) && r.matchPath path then !inc else inc) rest

/-- The inclusion decision of the matching loops on a chain of real rules
(the Matcher of spec section 4.3 as the code implements it). -/
def is_included (isDir : Bool) (chain : List IgnoreRule) (path : List String) : Bool :=
  chain.foldl (fun inc r =>
    if r.directory_only && !isDir then inc
    else if (inc != r.negation) && r.matchPath path then !inc else inc) true

/-- The inclusion decision exactly as the claim (and spec section 4.3) words
it: a matching rule sets `included` to the complement of its negation flag. -/
def is_included_claimed (isDir : Bool) (chain : List IgnoreRule) (path : List String) : Bool :=
  chain.foldl (fun inc r =>
    if r.directory_only && !isDir then inc
    else if r.matchPath path then !r.negation else inc) true

/-- The inclusion decision with the claim's assignment corrected: a matching
rule sets `included` to its negation flag (exclude rules exclude, negation
rules re-include). -/
def is_included_amended (isDir : Bool) (chain : List IgnoreRule) (path : List String) : Bool :=
  chain.foldl (fun inc r =>
    if r.directory_only && !isDir then inc
    else if r.matchPath path then r.negation else inc) true

/-- The `ignore` accumulation of `walk` (git.py lines 105-114 / 116-127):
names whose inclusion evaluates to false, in input order; an exception
while evaluating any name aborts the loop. -/
def excludedEntries (isDir : Bool) (flat : List (Option IgnoreRule))
    (base : List String) : List String → Except PyErr (List String)
  | [] => .ok []
  | d :: rest =>
      match includedLoop isDir (base ++ [d]) true flat with
      | .error e => .error e
      | .ok inc =>
          match excludedEntries isDir flat base rest with
          | .error e => .error e
          | .ok l => .ok (if inc then l else d :: l)

/-- The walk state: `rule_list`, a mapping from relative directory path
(expressed as segments, `[]` for the walk root's `.`) to the rules declared
there (git.py line 78).  Later insertions shadow earlier ones, like a dict. -/
abbrev RuleList := List (List String × List IgnoreRule)

/-- Dict lookup in `rule_list`; reachable lookups always find their key
(top-down traversal inserts every ancestor first). -/
def lookupRL (rl : RuleList) (key : List String) : List IgnoreRule :=
  match rl.lookup key with
  | some v => v
  | none => []

/-- `pathlib.Path.parents` on a segment path: the successive proper prefixes,
nearest parent first, down to the filesystem root `[]`. -/
def pyParents (q : List String) : List (List String) :=
  ((List.range q.length).map (fun k => q.take k)).reverse

/-- `Path.relative_to`: the suffix of `p` after the prefix `R`.  (The Python
call raises when `R` is not a prefix; the walker only reaches it on
subpaths of the starting directory, so it is modelled total.) -/
def relativeTo (p R : List String) : List String := p.drop R.length

/-- The ancestor-collection loop of `walk` (git.py lines 91-95): iterate the
parents of the current directory, appending each parent's stored rule list,
and stop after the first parent that is not a proper ancestor of the
starting directory. -/
def parentLoop (rl : RuleList) (R : List String) : List (List String) → List (List IgnoreRule)
  | [] => []
  | p :: rest =>
      lookupRL rl (relativeTo p R) ::
        (if p ∈ pyParents R then parentLoop rl R rest else [])

/-- The rule chain built for the directory with relative segments `s`
(git.py lines 87-101): current directory's rules, the parent-loop rules
when the current directory is not the walk root, then the root's rules;
the list of lists is reversed and flattened. -/
def applicableFlat (rl : RuleList) (R s : List String) : List IgnoreRule :=
  let applicable :=
    [lookupRL rl s] ++
      (if s = [] then [] else parentLoop rl R (pyParents (R ++ s))) ++
      [lookupRL rl []]
  applicable.reverse.flatten

/-- git.py lines 56-60: compile the override patterns against the walk root;
rejected patterns stay in the list as Python `None` (modelled `none`). -/
def compileOverrides (abspath : List String → List String) (R : List String) :
    List String → Except PyErr (List (Option IgnoreRule))
  | [] => .ok []
  | p :: rest =>
      match rule_from_pattern abspath p (some R) (some ("manual override", none)) with
      | .error e => .error e
      | .ok r =>
          match compileOverrides abspath R rest with
          | .error e => .error e
          | .ok l => .ok (r :: l)

/-- git.py lines 68-71: compile the ignore-completely patterns with no
base path; `none` for the argument means the Python default `['.git']`
(lines 64-67). -/
def icLoop (abspath : List String → List String) :
    List String → Except PyErr (List (Option IgnoreRule))
  | [] => .ok []
  | p :: rest =>
      match rule_from_pattern abspath p none (some ("application-level override", none)) with
      | .error e => .error e
      | .ok r =>
          match icLoop abspath rest with
          | .error e => .error e
          | .ok l => .ok (r :: l)

/-- git.py lines 64-71: the ignore-completely list defaults to `['.git']`
when the argument is Python `None`; each pattern is compiled with no base
path. -/
def compileIgnoreCompletely (abspath : List String → List String)
    (ignore_completely : Option (List String)) : Except PyErr (List (Option IgnoreRule)) :=
  icLoop abspath
    (match ignore_completely with
     | none => [".git"]
     | some l => l)

/-- The list comprehension `[rule for rule in ignore_completely if
rule.negation]` (git.py line 72): collects the negation rules; touching a
`None` entry raises `AttributeError`. -/
def filterNegations : List (Option IgnoreRule) → Except PyErr (List IgnoreRule)
  | [] => .ok []
  | none :: _ => .error .attributeError
  | some r :: rest =>
      match filterNegations rest with
      | .error e => .error e
      | .ok l => .ok (if r.negation then r :: l else l)


mutual
/-- A directory tree as the enumeration primitive (`os.walk`) reports it:
named subdirectories in report order (`FSKids`, a bespoke list so that all
recursion over the tree is structural), and files as name/content pairs,
the content being the lines of the file with trailing newlines removed
(only ignore files are ever opened). -/
inductive FSDir where
  | mk (dirs : FSKids) (files : List (String × List String)) : FSDir
/-- A list of named subdirectories. -/
inductive FSKids where
  | nil : FSKids
  | cons (name : String) (tree : FSDir) (rest : FSKids) : FSKids
end

/-- The subdirectory list as an ordinary list of name/tree pairs. -/
def FSKids.toList : FSKids → List (String × FSDir)
  | .nil => []
  | .cons n t rest => (n, t) :: rest.toList

/-- Builds the subdirectory list from an ordinary list. -/
def FSKids.ofList : List (String × FSDir) → FSKids
  | [] => .nil
  | (n, t) :: rest => .cons n t (FSKids.ofList rest)

/-- The subdirectories of a tree node, as a list of name/tree pairs. -/
def FSDir.dirs : FSDir → List (String × FSDir)
  | .mk d _ => d.toList

/-- The files of a tree node. -/
def FSDir.files : FSDir → List (String × List String)
  | .mk _ f => f

mutual
/-- The number of directories in a tree (itself included); used only to
bound the traversal fuel. -/
def FSDir.size : FSDir → Nat
  | .mk d _ => 1 + FSKids.size d
/-- The total number of directories in a subdirectory list. -/
def FSKids.size : FSKids → Nat
  | .nil => 0
  | .cons _ t rest => 1 + FSDir.size t + FSKids.size rest
end

/-- One output tuple of `walk`: the directory path as yielded by `os.walk`
(the `directory` argument joined with the relative segments), the surviving
subdirectory names, and the surviving file names. -/
abbrev WalkTup := List String × List String × List String

/-- The traversal of `walk` (git.py lines 79-130) as a depth-first worklist:
each entry is a pending directory (its segments relative to the walk root,
and its tree).  For the directory at the head: read its ignore file if
present (line 82-83), store its rules under its relative path (line 86),
build the flat rule chain and append overrides then ignore-completely
rules (lines 89-104), prune subdirectories and filter files (lines
105-128), yield the tuple (line 129), then descend into the surviving
subdirectories in report order before the remaining work.  A Python
exception terminates the generator: tuples already yielded are kept,
nothing further is produced.

`walkStep` is the per-directory work: reading the ignore file, storing
its rules, building the chain, and computing the surviving subdirectory
and file names (or the exception that interrupted them). -/
def walkStep (abspath : List String → List String) (R : List String)
    (filename : String) (ovr ic : List (Option IgnoreRule)) (rl : RuleList)
    (s : List String) (t : FSDir) :
    Except PyErr (List IgnoreRule × List String × List String) :=
  let fileNames := t.files.map Prod.fst
  let rulesE :=
    if fileNames.contains filename then
      rules_from_file abspath filename (R ++ s) ((t.files.lookup filename).getD [])
    else .ok []
  match rulesE with
  | .error e => .error e
  | .ok rules =>
    let rl' := (s, rules) :: rl
    let flat := (applicableFlat rl' R s).map some ++ ovr ++ ic
    match excludedEntries true flat (R ++ s) (t.dirs.map Prod.fst) with
    | .error e => .error e
    | .ok ignD =>
      let keptD := (t.dirs.map Prod.fst).filter (fun d => !(ignD.contains d))
      match excludedEntries false flat (R ++ s) fileNames with
      | .error e => .error e
      | .ok ignF =>
        let keptF := fileNames.filter (fun f => !(ignF.contains f))
        .ok (rules, keptD, keptF)

/-- The recursion of the traversal; `walkStep` above is the per-directory
work, and the surviving subdirectories are pushed in front of the
remaining worklist (depth-first, report order).  The `fuel` argument only
forces structural recursion: `walk` supplies a fuel that
`walkGo_fuel_stable` below proves is never exhausted, so the recursion is
exactly the traversal's. -/
def walkGo (abspath : List String → List String) (directory R : List String)
    (filename : String) (ovr ic : List (Option IgnoreRule)) :
    Nat → RuleList → List (List String × FSDir) → List WalkTup × Option PyErr
  | 0, _, _ => ([], none)
  | _ + 1, _, [] => ([], none)
  | fuel + 1, rl, (s, t) :: rest =>
      match walkStep abspath R filename ovr ic rl s t with
      | .error e => ([], some e)
      | .ok (rules, keptD, keptF) =>
        let kids := (t.dirs.filter (fun nd => keptD.contains nd.1)).map
          (fun nd => (s ++ [nd.1], nd.2))
        let res := walkGo abspath directory R filename ovr ic fuel ((s, rules) :: rl) (kids ++ rest)
        ((directory ++ s, keptD, keptF) :: res.1, res.2)

/-- git.py lines 47-130 (`walk`): setup compiles the overrides against the
absolute starting directory and the ignore-completely patterns with no base
path, rejects negation rules among the latter, then runs the traversal.
The result is the list of yielded tuples together with the exception that
terminated the generator, if any. -/
def walk (abspath : List String → List String) (tree : FSDir)
    (directory : List String) (filename : String) (overrides : List String)
    (ignore_completely : Option (List String)) : List WalkTup × Option PyErr :=
  let R := abspath directory
  match compileOverrides abspath R overrides with
  | .error e => ([], some e)
  | .ok ovr =>
    match compileIgnoreCompletely abspath ignore_completely with
    | .error e => ([], some e)
    | .ok ic =>
      match filterNegations ic with
      | .error e => ([], some e)
      | .ok negs =>
        if negs ≠ [] then
          ([], some (.valueError "negation rules are not allowed in the ignore completely rules"))
        else walkGo abspath directory R filename ovr ic (tree.size + 1) [] [([], tree)]

/-- The search loop of `ancestor_vcs_directory` (git.py lines 36-43): the
parents list is reversed and popped from the end, i.e. consumed nearest
parent first; each candidate directory is tested for a `dirname`
subdirectory that exists and is a directory, and the current directory is
replaced by the next parent on failure.  The loop exits without testing
once the parents are exhausted. -/
def avdLoop (hit : List String → Bool) : List String → List (List String) → Option (List String)
  | _, [] => none
  | current, p :: rest => if hit current then some current else avdLoop hit p rest

/-- git.py lines 20-44 (`ancestor_vcs_directory`).  `expanduser`, `abspath`
and the filesystem predicates `pexists` / `isdirq` / `isfileq` stand for
the corresponding `os.path` calls.  Raises when the (expanded) input path
does not exist; returns the path itself when it is a directory whose last
segment is the literal `.git`; otherwise searches upward for an ancestor
containing a `dirname` subdirectory. -/
def ancestor_vcs_directory (expanduser abspath : List String → List String)
    (pexists isdirq isfileq : List String → Bool)
    (filepath : List String) (dirname : String) : Except PyErr (Option (List String)) :=
  let fp := expanduser filepath
  if !pexists fp then .error (.valueError "does not exist")
  else if isdirq fp && (fp.getLast? == some ".git") then .ok (some fp)
  else
    let path0 := abspath fp
    let path := if isfileq path0 then path0.dropLast else path0
    .ok (avdLoop
      (fun cur => pexists (cur ++ [dirname]) && isdirq (cur ++ [dirname]))
      path (pyParents path))

theorem walkGo_nil (abspath : List String → List String) (directory R : List String)
    (filename : String) (ovr ic : List (Option IgnoreRule)) (fuel : Nat) (rl : RuleList) :
    walkGo abspath directory R filename ovr ic fuel rl [] = ([], none) := by
  cases fuel <;> simp [walkGo]

theorem FSKids_size_toList :
    ∀ (k : FSKids), FSKids.size k = (k.toList.map (fun nd => 1 + FSDir.size nd.2)).sum
  | .nil => by simp [FSKids.size, FSKids.toList]
  | .cons n t rest => by
      have ih := FSKids_size_toList rest
      simp [FSKids.size, FSKids.toList, ih]
      try omega

theorem sum_filter_le_sum (f : String × FSDir → Nat) (p : String × FSDir → Bool)
    (l : List (String × FSDir)) :
    ((l.filter p).map f).sum ≤ (l.map f).sum := by
  induction l with
  | nil => simp
  | cons a rest ih =>
    by_cases hp : p a
    · simp [List.filter_cons, hp]; omega
    · simp [List.filter_cons, hp]; omega

theorem kids_measure_le (p : String × FSDir → Bool) (t : FSDir) :
    (((t.dirs.filter p).map (fun nd => FSDir.size nd.2)).sum) + (t.dirs.filter p).length
      ≤ FSDir.size t - 1 := by
  cases t with
  | mk k f =>
    have hsz : FSDir.size (FSDir.mk k f) = 1 + FSKids.size k := rfl
    have hdirs : (FSDir.mk k f).dirs = k.toList := rfl
    rw [hsz, hdirs]
    have h1 : ((k.toList.filter p).map (fun nd => FSDir.size nd.2)).sum +
        (k.toList.filter p).length =
        ((k.toList.filter p).map (fun nd => 1 + FSDir.size nd.2)).sum := by
      induction (k.toList.filter p) with
      | nil => simp
      | cons a rest ih => simp [ih]; omega
    rw [h1]
    have h2 := sum_filter_le_sum (fun nd => 1 + FSDir.size nd.2) p k.toList
    rw [FSKids_size_toList k]
    omega

/-- The fuel supplied to `walkGo` is irrelevant once it exceeds the number
of directories reachable from the worklist: the structural-recursion fuel
never cuts the traversal short for the fuel `walk` supplies. -/
theorem walkGo_fuel_stable (abspath : List String → List String) (directory R : List String)
    (filename : String) (ovr ic : List (Option IgnoreRule)) :
    ∀ f1 f2 rl (wl : List (List String × FSDir)),
      (wl.map (fun x => FSDir.size x.2)).sum + wl.length ≤ f1 →
      (wl.map (fun x => FSDir.size x.2)).sum + wl.length ≤ f2 →
      walkGo abspath directory R filename ovr ic f1 rl wl =
        walkGo abspath directory R filename ovr ic f2 rl wl := by
  intro f1
  induction f1 using Nat.strong_induction_on with
  | _ f1 ih =>
    intro f2 rl wl h1 h2
    match wl with
    | [] => rw [walkGo_nil, walkGo_nil]
    | (s, t) :: rest =>
      have hbig : 1 ≤ FSDir.size t := by
        cases t with
        | mk k f => simp [FSDir.size]
      simp at h1 h2
      match f1, f2 with
      | fp1 + 1, fp2 + 1 =>
        simp only [walkGo]
        cases hstep : walkStep abspath R filename ovr ic rl s t with
        | error e => simp
        | ok v =>
          match v with
          | (rules, keptD, keptF) =>
            have hkle := kids_measure_le (fun nd => keptD.contains nd.1) t
            have hrec := ih fp1 (by (try simp only [List.length_cons, List.length_nil]); omega) fp2 ((s, rules) :: rl)
              ((((t.dirs.filter (fun nd => keptD.contains nd.1)).map
                  (fun nd => (s ++ [nd.1], nd.2)))) ++ rest)
              (by
                simp only [List.map_append, List.sum_append, List.length_append,
                  List.map_map, List.length_map, Function.comp_def]
                omega)
              (by
                simp only [List.map_append, List.sum_append, List.length_append,
                  List.map_map, List.length_map, Function.comp_def]
                omega)
            simp only []
            rw [hrec]

/-- The fuel `walk` supplies (`tree.size + 1`) meets the bound of
`walkGo_fuel_stable` for the initial worklist, so any larger fuel gives
the same traversal: the structural fuel never changes `walk`'s output. -/
theorem walk_fuel_irrelevant (abspath : List String → List String)
    (directory R : List String) (filename : String)
    (ovr ic : List (Option IgnoreRule)) (tree : FSDir) (extra : Nat) :
    walkGo abspath directory R filename ovr ic (tree.size + 1 + extra) [] [([], tree)] =
      walkGo abspath directory R filename ovr ic (tree.size + 1) [] [([], tree)] := by
  apply walkGo_fuel_stable
  · simp only [List.map_cons, List.map_nil, List.sum_cons, List.sum_nil, List.length_cons,
      List.length_nil]
    omega
  · simp only [List.map_cons, List.map_nil, List.sum_cons, List.sum_nil, List.length_cons,
      List.length_nil]
    omega


/-! ## Claim theorems -/

/-- C2 (refuted): the claim says `rule_from_pattern` raises only when a
non-absolute `base_path` is supplied, and that `**`, `**/` and `//` are
accepted patterns handled without raising.  In fact, with no `base_path`
supplied at all, the code raises `IndexError` on `**` (empty string
indexed at git.py line 197 after the `**` prefix is stripped), on `**/`
and `//` (line 199), on `!` (line 188) and on `*` (line 194). -/
theorem c2_compiler_raises_without_base_path :
    rule_from_pattern (fun p => p) "**" none none = .error .indexError ∧
    rule_from_pattern (fun p => p) "**/" none none = .error .indexError ∧
    rule_from_pattern (fun p => p) "//" none none = .error .indexError ∧
    rule_from_pattern (fun p => p) "!" none none = .error .indexError ∧
    rule_from_pattern (fun p => p) "*" none none = .error .indexError :=
  ⟨rfl, rfl, rfl, rfl, rfl⟩

/-- C4 (confirmed): the chain compiled from the lines `*.log` then
`!keep.log` excludes `a.log`, includes `keep.log` (the later negation rule
wins), and includes `b.txt` (no rule matches, default include); none of the
candidates is a directory. -/
theorem c4_log_chain_decisions :
    ∃ r1 r2 : IgnoreRule,
      rules_from_file (fun p => p) ".gitignore" ["root"] ["*.log", "!keep.log"] =
        .ok [r1, r2] ∧
      is_included false [r1, r2] ["root", "a.log"] = false ∧
      is_included false [r1, r2] ["root", "keep.log"] = true ∧
      is_included false [r1, r2] ["root", "b.txt"] = true := by
  refine ⟨_, _, rfl, ?_, ?_, ?_⟩ <;> rfl

/-- C10 (confirmed): for an existing path that is a directory whose final
segment is the literal `.git`, `ancestor_vcs_directory` returns the path
itself, whatever `dirname` is asked for — the shortcut at git.py line 29
compares the basename against the literal `.git`, not against `dirname`. -/
theorem c10_git_shortcut (expanduser abspath : List String → List String)
    (pexists isdirq isfileq : List String → Bool)
    (filepath : List String) (dirname : String)
    (hexp : expanduser filepath = filepath)
    (hex : pexists filepath = true)
    (hdir : isdirq filepath = true)
    (hlast : filepath.getLast? = some ".git") :
    ancestor_vcs_directory expanduser abspath pexists isdirq isfileq filepath dirname =
      .ok (some filepath) := by
  unfold ancestor_vcs_directory
  simp [hexp, hex, hdir, hlast]

/-- Witness for `c10_git_shortcut`: a concrete filesystem in which
`repo/.git` exists and is a directory, queried with `dirname = "_svn"`. -/
theorem c10_git_shortcut_witness :
    ancestor_vcs_directory (fun p => p) (fun p => p) (fun _ => true) (fun _ => true)
      (fun _ => false) ["repo", ".git"] "_svn" = .ok (some ["repo", ".git"]) :=
  c10_git_shortcut (fun p => p) (fun p => p) (fun _ => true) (fun _ => true)
    (fun _ => false) ["repo", ".git"] "_svn" rfl rfl rfl rfl

/-- C1 (refuted; the rule-chain assembly is broken): walking a tree
`root/a/b/c` where `a/.gitignore` declares `*.log`, the rule applies at `a`
(`y.log` filtered) and at `a/b` (`z.log` filtered, `a` being the immediate
parent), but NOT at `a/b/c`: the parent loop at git.py lines 91-95 breaks
after the first parent, so the chain at `a/b/c` holds only the root's, the
immediate parent `a/b`'s and `a/b/c`'s own rule lists — `a`'s declared
rules are dropped and `x.log` is yielded, where the claim (all ancestors
root-to-current) requires it to be excluded. -/
theorem c1_ancestor_rules_dropped_at_depth_three :
    walk (fun p => p)
      (.mk (.cons "a" (.mk (.cons "b" (.mk (.cons "c" (.mk .nil [("x.log", [])]) .nil)
        [("z.log", [])]) .nil) [(".gitignore", ["*.log"]), ("y.log", [])]) .nil) [])
      ["root"] ".gitignore" [] (some []) =
      ([(["root"], ["a"], []),
        (["root", "a"], ["b"], [".gitignore"]),
        (["root", "a", "b"], ["c"], []),
        (["root", "a", "b", "c"], [], ["x.log"])], none) := rfl

/-- C6 (refuted): a pattern that the compiler rejects is not invisible in
the override and ignore-completely lists.  A blank entry among the
ignore-completely patterns stays in the list as Python `None` and crashes
the negation check at git.py line 72 with `AttributeError` during setup;
a comment entry among the overrides stays as `None` in every rule chain
and crashes the first matching loop (line 110) with `AttributeError`, so
the walk yields nothing at all. -/
theorem c6_rejected_patterns_crash_walk :
    walk (fun p => p) (.mk (.cons "src" (.mk .nil []) .nil) [])
        ["root"] ".gitignore" [] (some ["", ".git"]) =
      ([], some .attributeError) ∧
    walk (fun p => p) (.mk (.cons "src" (.mk .nil []) .nil) [])
        ["root"] ".gitignore" ["# comment"] (some []) =
      ([], some .attributeError) :=
  ⟨rfl, rfl⟩

/-- C5 (refuted for the hard-exclude half): the rules compiled from the
ignore-completely list carry no declaring path at all — git.py line 69
calls `rule_from_pattern` without a `base_path`, so the stored `base_path`
is `None`, not the walk root (and in particular not equal to `some R` for
any root `R`). -/
theorem c5_counterexample_hard_exclude_base_path :
    ∃ r : IgnoreRule,
      compileIgnoreCompletely (fun p => p) (some [".git"]) = .ok [some r] ∧
      r.base_path = none ∧ ∀ R : List String, r.base_path ≠ some R :=
  ⟨⟨".git", ".git", false, false, false, none,
      some ("application-level override", none)⟩, rfl, rfl, fun _ h => by simp at h⟩

/-- C3 (refuted as worded): a chain holding one matching non-negation rule
(a plain exclude) must exclude the candidate, but the claim's assignment
`included = !rule.negation` would set `included` to `true`.  On the rule
compiled from `a` and the candidate `a`, the code's decision is `false`
while the claim's recipe gives `true`. -/
theorem c3_counterexample_assignment_flipped :
    ¬ (is_included false [⟨"a", "a", false, false, false, none, none⟩] ["a"] =
       is_included_claimed false [⟨"a", "a", false, false, false, none, none⟩] ["a"]) := by
  decide

/-- C3 (amended): the inclusion decision is the claim's algorithm with the
assignment corrected to `included = rule.negation` — a matching rule sets
the state to its own negation flag.  This is equivalent to the code's
guarded toggle (`if included != rule.negation: if rule.match: included =
not included`): when the guard passes the toggle lands on `rule.negation`,
and when it is skipped the state already equals `rule.negation`. -/
theorem c3_amended_matcher_assignment (isDir : Bool) (chain : List IgnoreRule)
    (path : List String) :
    is_included isDir chain path = is_included_amended isDir chain path := by
  unfold is_included is_included_amended
  apply List.foldl_ext
  intro inc r _
  by_cases hd : r.directory_only && !isDir
  · simp [hd]
  · simp only [hd, if_false, Bool.false_eq_true]
    by_cases hm : r.matchPath path
    · cases inc <;> cases hneg : r.negation <;> simp [hm, hneg]
    · simp [hm]

/-- Witness for `c3_amended_matcher_assignment`: on the `*.log` /
`!keep.log` example chain the two formulations agree. -/
theorem c3_amended_matcher_assignment_witness :
    is_included false [⟨"*.log", "*.log", false, false, false, some ["root"], none⟩,
        ⟨"!keep.log", "keep.log", true, false, false, some ["root"], none⟩]
      ["root", "keep.log"] =
    is_included_amended false [⟨"*.log", "*.log", false, false, false, some ["root"], none⟩,
        ⟨"!keep.log", "keep.log", true, false, false, some ["root"], none⟩]
      ["root", "keep.log"] :=
  c3_amended_matcher_assignment false _ _

theorem rule_from_pattern_base_path_some (abspath : List String → List String)
    (p : String) (bp : List String) (src : Option (String × Option Nat)) (r : IgnoreRule)
    (h : rule_from_pattern abspath p (some bp) src = .ok (some r)) :
    r.base_path = if bp.isEmpty then none else some bp := by
  simp only [rule_from_pattern] at h
  split at h
  · exact absurd h (by simp)
  · cases hcp : compilePattern p.data with
    | error e => rw [hcp] at h; exact absurd h (by simp)
    | ok v =>
      cases v with
      | none => rw [hcp] at h; exact absurd h (by simp)
      | some parts =>
        rw [hcp] at h
        simp only [Except.ok.injEq, Option.some.injEq] at h
        rw [← h]

theorem rule_from_pattern_base_path_none (abspath : List String → List String)
    (p : String) (src : Option (String × Option Nat)) (r : IgnoreRule)
    (h : rule_from_pattern abspath p none src = .ok (some r)) :
    r.base_path = none := by
  simp only [rule_from_pattern] at h
  split at h
  · exact absurd h (by simp)
  · cases hcp : compilePattern p.data with
    | error e => rw [hcp] at h; exact absurd h (by simp)
    | ok v =>
      cases v with
      | none => rw [hcp] at h; exact absurd h (by simp)
      | some parts =>
        rw [hcp] at h
        simp only [Except.ok.injEq, Option.some.injEq] at h
        rw [← h]

theorem compileOverrides_base_path (abspath : List String → List String) (R : List String) :
    ∀ (ov : List String) (l : List (Option IgnoreRule)),
      compileOverrides abspath R ov = .ok l →
      ∀ r : IgnoreRule, some r ∈ l → r.base_path = if R.isEmpty then none else some R := by
  intro ov
  induction ov with
  | nil =>
    intro l h r hr
    simp [compileOverrides] at h
    subst h
    simp at hr
  | cons p rest ih =>
    intro l h r hr
    unfold compileOverrides at h
    cases hc : rule_from_pattern abspath p (some R) (some ("manual override", none)) with
    | error e => rw [hc] at h; exact absurd h (by simp)
    | ok o =>
      rw [hc] at h
      cases hrest : compileOverrides abspath R rest with
      | error e => rw [hrest] at h; exact absurd h (by simp)
      | ok l2 =>
        rw [hrest] at h
        simp only [Except.ok.injEq] at h
        rw [← h] at hr
        rcases List.mem_cons.mp hr with heq | htail
        · rw [← heq] at hc
          exact rule_from_pattern_base_path_some abspath p R _ r hc
        · exact ih l2 hrest r htail

theorem icLoop_base_path (abspath : List String → List String) :
    ∀ (ps : List String) (l : List (Option IgnoreRule)),
      icLoop abspath ps = .ok l →
      ∀ r : IgnoreRule, some r ∈ l → r.base_path = none := by
  intro ps
  induction ps with
  | nil =>
    intro l h r hr
    simp [icLoop] at h
    subst h
    simp at hr
  | cons p rest ih =>
    intro l h r hr
    unfold icLoop at h
    cases hc : rule_from_pattern abspath p none (some ("application-level override", none)) with
    | error e => rw [hc] at h; exact absurd h (by simp)
    | ok o =>
      rw [hc] at h
      cases hrest : icLoop abspath rest with
      | error e => rw [hrest] at h; exact absurd h (by simp)
      | ok l2 =>
        rw [hrest] at h
        simp only [Except.ok.injEq] at h
        rw [← h] at hr
        rcases List.mem_cons.mp hr with heq | htail
        · rw [← heq] at hc
          exact rule_from_pattern_base_path_none abspath p _ r hc
        · exact ih l2 hrest r htail

/-- C5 (amended): only the override rules are declared at the walk root;
every rule compiled by `walk`'s setup from the overrides list stores the
absolute walk root as its `base_path` (git.py lines 58-60), while every
rule compiled from the hard-excludes (ignore-completely) list stores no
`base_path` at all (line 69 passes none). -/
theorem c5_amended_setup_base_paths (abspath : List String → List String)
    (R : List String) (ov : List String) (ic : Option (List String))
    (lov lic : List (Option IgnoreRule))
    (hR : R ≠ [])
    (hov : compileOverrides abspath R ov = .ok lov)
    (hic : compileIgnoreCompletely abspath ic = .ok lic) :
    (∀ r : IgnoreRule, some r ∈ lov → r.base_path = some R) ∧
    (∀ r : IgnoreRule, some r ∈ lic → r.base_path = none) := by
  constructor
  · intro r hr
    have := compileOverrides_base_path abspath R ov lov hov r hr
    simpa [List.isEmpty_iff, hR] using this
  · intro r hr
    exact icLoop_base_path abspath _ lic hic r hr

/-- Witness for `c5_amended_setup_base_paths`: the default hard-exclude
`.git` compiled by `walk`'s setup at root `["root"]` with one override. -/
theorem c5_amended_setup_base_paths_witness :
    (⟨"*.log", "*.log", false, false, false, some ["root"],
        some ("manual override", none)⟩ : IgnoreRule).base_path = some ["root"] ∧
    (⟨".git", ".git", false, false, false, none,
        some ("application-level override", none)⟩ : IgnoreRule).base_path = none :=
  ⟨(c5_amended_setup_base_paths (fun p => p) ["root"] ["*.log"] none _ _
      (by decide) rfl rfl).1 _ (by decide),
   (c5_amended_setup_base_paths (fun p => p) ["root"] ["*.log"] none _ _
      (by decide) rfl rfl).2 _ (by decide)⟩

theorem afterBang_of_starStar (neg : Bool) (p1 : List Char)
    (h : starStarOk none p1 = false) : afterBang neg p1 = .ok none := by
  unfold afterBang
  rw [if_pos h]

theorem afterBang_of_slash (neg : Bool) (p1 : List Char)
    (h : rstripChars p1 = ['/']) : afterBang neg p1 = .ok none := by
  unfold afterBang
  by_cases h2 : starStarOk none p1 = false
  · rw [if_pos h2]
  · rw [if_neg h2, if_pos h]

theorem rule_from_pattern_of_compile (abspath : List String → List String)
    (p : String) (src : Option (String × Option Nat))
    (h : compilePattern p.data = .ok none) :
    rule_from_pattern abspath p none src = .ok none := by
  simp [rule_from_pattern, h]

/-- C8 (confirmed): the compiler's rejection cases, in source order.  With
no base path in play: (1) blank/whitespace-only text or a leading `#`
yields no Rule; (2) text containing `***` yields no Rule; (3) one leading
`!` is stripped before the double-asterisk validation — `!**bad**` is
validated on the body `**bad**` and accepted as a negation rule; (4) a
`**` occurrence that is neither at the start nor at the end of the
stripped body nor bounded by `/` on both sides yields no Rule; (5) a body
whose trailing whitespace trims to exactly `/` yields no Rule.  `a/**b`,
`***x` and bare `/` all yield no Rule, and in every one of the cases the
result is `ok none` — a Rule never exists for such input. -/
theorem c8_rejection_cases (abspath : List String → List String)
    (src : Option (String × Option Nat)) (p : String) :
    ((stripChars p.data = [] ∨ p.data.head? = some '#') →
        rule_from_pattern abspath p none src = .ok none) ∧
    (hasTripleStar p.data = true →
        rule_from_pattern abspath p none src = .ok none) ∧
    (starStarOk none (stripBang p.data).2 = false →
        rule_from_pattern abspath p none src = .ok none) ∧
    (rstripChars (stripBang p.data).2 = ['/'] →
        rule_from_pattern abspath p none src = .ok none) ∧
    rule_from_pattern abspath "a/**b" none src = .ok none ∧
    rule_from_pattern abspath "***x" none src = .ok none ∧
    rule_from_pattern abspath "/" none src = .ok none ∧
    rule_from_pattern abspath "!**bad**" none src =
      .ok (some ⟨"!**bad**", "bad**", true, false, false, none, src⟩) := by
  refine ⟨?_, ?_, ?_, ?_, rfl, rfl, rfl, rfl⟩
  · intro h
    apply rule_from_pattern_of_compile
    rcases h with h | h
    · simp [compilePattern, h]
    · by_cases h0 : stripChars p.data = [] <;> simp [compilePattern, h0, h]
  · intro h
    apply rule_from_pattern_of_compile
    by_cases h0 : stripChars p.data = [] <;>
      by_cases h1 : p.data.head? = some '#' <;>
        simp [compilePattern, h0, h1, h]
  · intro h
    apply rule_from_pattern_of_compile
    by_cases h0 : stripChars p.data = [] <;>
      by_cases h1 : p.data.head? = some '#' <;>
        by_cases h2 : hasTripleStar p.data <;>
          simp [compilePattern, h0, h1, h2,
            afterBang_of_starStar (stripBang p.data).1 (stripBang p.data).2 h]
  · intro h
    apply rule_from_pattern_of_compile
    by_cases h0 : stripChars p.data = [] <;>
      by_cases h1 : p.data.head? = some '#' <;>
        by_cases h2 : hasTripleStar p.data <;>
          simp [compilePattern, h0, h1, h2,
            afterBang_of_slash (stripBang p.data).1 (stripBang p.data).2 h]

/-- Witness for `c8_rejection_cases`: a comment line yields no Rule. -/
theorem c8_rejection_cases_witness :
    rule_from_pattern (fun p : List String => p) "# note" none none = .ok none :=
  (c8_rejection_cases (fun p => p) none "# note").1 (Or.inr (by decide))

theorem filterNegations_mem_neg :
    ∀ (l : List (Option IgnoreRule)) (negs : List IgnoreRule),
      filterNegations l = .ok negs → ∀ r : IgnoreRule, some r ∈ l → r.negation = true →
        r ∈ negs := by
  intro l
  induction l with
  | nil => intro negs h r hr; simp at hr
  | cons o rest ih =>
    intro negs h r hr hneg
    cases o with
    | none => exact absurd h (by simp [filterNegations])
    | some q =>
      unfold filterNegations at h
      cases hrest : filterNegations rest with
      | error e => rw [hrest] at h; exact absurd h (by simp)
      | ok l2 =>
        rw [hrest] at h
        simp only [Except.ok.injEq] at h
        rcases List.mem_cons.mp hr with heq | htail
        · have hq : q = r := by injection heq with h'; exact h'.symm
          subst hq
          rw [← h, hneg]
          simp
        · have := ih l2 hrest r htail hneg
          rw [← h]
          by_cases hqn : q.negation <;> simp [hqn, this]

theorem filterNegations_ok_of_no_none :
    ∀ (l : List (Option IgnoreRule)), (∀ o ∈ l, o ≠ none) →
      ∃ negs, filterNegations l = .ok negs := by
  intro l
  induction l with
  | nil => exact fun _ => ⟨[], rfl⟩
  | cons o rest ih =>
    intro h
    cases o with
    | none => exact absurd (h none (by simp)) (by simp)
    | some q =>
      obtain ⟨negs, hn⟩ := ih (fun o ho => h o (List.mem_cons_of_mem _ ho))
      exact ⟨if q.negation then q :: negs else negs, by simp [filterNegations, hn]⟩

/-- C9 (confirmed): if any hard-exclude (ignore-completely) pattern
compiles to a negation rule, `walk` produces no tuple at all and
terminates with an error before any traversal; when the rest of the setup
is clean (the overrides compile and no hard-exclude entry was rejected),
that error is precisely the configuration `ValueError` raised at git.py
lines 72-74. -/
theorem c9_negation_hard_exclude (abspath : List String → List String)
    (tree : FSDir) (directory : List String) (filename : String)
    (ov : List String) (ic : Option (List String))
    (icl : List (Option IgnoreRule)) (r : IgnoreRule)
    (hic : compileIgnoreCompletely abspath ic = .ok icl)
    (hr : some r ∈ icl) (hneg : r.negation = true) :
    (walk abspath tree directory filename ov ic).1 = [] ∧
    (walk abspath tree directory filename ov ic).2 ≠ none ∧
    (∀ lov, compileOverrides abspath (abspath directory) ov = .ok lov →
      (∀ o ∈ icl, o ≠ none) →
      (walk abspath tree directory filename ov ic).2 =
        some (.valueError "negation rules are not allowed in the ignore completely rules")) := by
  cases hov : compileOverrides abspath (abspath directory) ov with
  | error e =>
    simp only [walk, hov]
    exact ⟨trivial, by simp, fun lov hlov _ => absurd hlov (by simp)⟩
  | ok ovr =>
    cases hfn : filterNegations icl with
    | error e2 =>
      simp only [walk, hov, hic, hfn]
      refine ⟨trivial, by simp, fun lov _ hnone => ?_⟩
      obtain ⟨negs, hok⟩ := filterNegations_ok_of_no_none icl hnone
      rw [hok] at hfn
      exact absurd hfn (by simp)
    | ok negs =>
      have hmem : r ∈ negs := filterNegations_mem_neg icl negs hfn r hr hneg
      have hne : negs ≠ [] := fun hnil => by rw [hnil] at hmem; simp at hmem
      simp only [walk, hov, hic, hfn, if_pos hne]
      exact ⟨trivial, by simp, fun lov _ _ => trivial⟩

/-- Witness for `c9_negation_hard_exclude`: walking any directory with
`ignore_completely = ["!x"]` yields nothing and errors. -/
theorem c9_negation_hard_exclude_witness :
    (walk (fun p => p) (.mk .nil []) ["r"] ".gitignore" [] (some ["!x"])).1 = [] ∧
    (walk (fun p => p) (.mk .nil []) ["r"] ".gitignore" [] (some ["!x"])).2 ≠ none :=
  ⟨(c9_negation_hard_exclude (fun p => p) (.mk .nil []) ["r"] ".gitignore" [] (some ["!x"])
      [some ⟨"!x", "x", true, false, false, none, some ("application-level override", none)⟩]
      ⟨"!x", "x", true, false, false, none, some ("application-level override", none)⟩
      rfl (by decide) rfl).1,
   (c9_negation_hard_exclude (fun p => p) (.mk .nil []) ["r"] ".gitignore" [] (some ["!x"])
      [some ⟨"!x", "x", true, false, false, none, some ("application-level override", none)⟩]
      ⟨"!x", "x", true, false, false, none, some ("application-level override", none)⟩
      rfl (by decide) rfl).2.1⟩

theorem includedLoop_append (isDir : Bool) (path : List String)
    (l1 l2 : List (Option IgnoreRule)) :
    ∀ inc : Bool,
      includedLoop isDir path inc (l1 ++ l2) =
        match includedLoop isDir path inc l1 with
        | .error e => .error e
        | .ok b => includedLoop isDir path b l2 := by
  induction l1 with
  | nil => intro inc; rfl
  | cons o rest ih =>
    intro inc
    cases o with
    | none => rfl
    | some r =>
      simp only [List.cons_append, includedLoop]
      by_cases hd : (r.directory_only && !isDir) = true
      · rw [if_pos hd, if_pos hd]
        exact ih inc
      · rw [if_neg hd, if_neg hd]
        exact ih _

theorem includedLoop_stays_false (path : List String) :
    ∀ (l : List (Option IgnoreRule)) (b : Bool),
      (∀ o ∈ l, ∃ r : IgnoreRule, o = some r ∧ r.negation = false) →
      includedLoop true path false l = .ok b → b = false := by
  intro l
  induction l with
  | nil => intro b _ h; simpa [includedLoop] using h.symm
  | cons o rest ih =>
    intro b hall h
    obtain ⟨r, ho, hneg⟩ := hall o (by simp)
    subst ho
    simp only [includedLoop, Bool.not_true, Bool.and_false, Bool.false_eq_true,
      if_false, hneg] at h
    exact ih b (fun o ho => hall o (by simp [ho])) (by simpa using h)

theorem includedLoop_tail_excludes (path : List String) :
    ∀ (l : List (Option IgnoreRule)) (inc b : Bool),
      (∀ o ∈ l, ∃ r : IgnoreRule, o = some r ∧ r.negation = false) →
      (∃ r : IgnoreRule, some r ∈ l ∧ r.matchPath path = true) →
      includedLoop true path inc l = .ok b → b = false := by
  intro l
  induction l with
  | nil => intro inc b _ hm; simp at hm
  | cons o rest ih =>
    intro inc b hall hm h
    obtain ⟨r, ho, hneg⟩ := hall o (by simp)
    subst ho
    simp only [includedLoop, hneg, Bool.not_true, Bool.and_false, Bool.false_eq_true,
      if_false] at h
    obtain ⟨q, hq, hqm⟩ := hm
    rcases List.mem_cons.mp hq with heq | htail
    · have hqr : q = r := by injection heq with h'
      subst hqr
      rw [hqm] at h
      have hst : (if (inc != false && true) = true then !inc else inc) = false := by
        cases inc <;> rfl
      rw [hst] at h
      exact includedLoop_stays_false path rest b (fun o ho => hall o (by simp [ho])) h
    · exact ih _ b (fun o ho => hall o (by simp [ho])) ⟨q, htail, hqm⟩ h

theorem excludedEntries_kept (isDir : Bool) (flat : List (Option IgnoreRule))
    (base : List String) :
    ∀ (names ign : List String),
      excludedEntries isDir flat base names = .ok ign →
      ∀ d ∈ names, d ∉ ign → includedLoop isDir (base ++ [d]) true flat = .ok true := by
  intro names
  induction names with
  | nil => intro ign _ d hd; simp at hd
  | cons n rest ih =>
    intro ign h d hd hnig
    unfold excludedEntries at h
    cases hinc : includedLoop isDir (base ++ [n]) true flat with
    | error e => rw [hinc] at h; exact absurd h (by simp)
    | ok inc =>
      rw [hinc] at h
      cases hrest : excludedEntries isDir flat base rest with
      | error e => rw [hrest] at h; exact absurd h (by simp)
      | ok l =>
        rw [hrest] at h
        simp only [Except.ok.injEq] at h
        rcases List.mem_cons.mp hd with heq | htail
        · subst heq
          cases hb : inc with
          | true => rw [hb] at hinc; exact hinc
          | false =>
            exfalso
            apply hnig
            rw [← h, hb]
            simp
        · apply ih l hrest d htail
          intro hdl
          apply hnig
          rw [← h]
          cases inc <;> simp [hdl]

theorem filterNegations_ok_nil :
    ∀ (l : List (Option IgnoreRule)), filterNegations l = .ok [] →
      ∀ o ∈ l, ∃ r : IgnoreRule, o = some r ∧ r.negation = false := by
  intro l
  induction l with
  | nil => intro _ o ho; simp at ho
  | cons o rest ih =>
    intro h q hq
    cases o with
    | none => exact absurd h (by simp [filterNegations])
    | some p =>
      unfold filterNegations at h
      cases hrest : filterNegations rest with
      | error e => rw [hrest] at h; exact absurd h (by simp)
      | ok l2 =>
        rw [hrest] at h
        simp only [Except.ok.injEq] at h
        by_cases hneg : p.negation = true
        · rw [if_pos hneg] at h; exact absurd h (by simp)
        · rw [if_neg hneg] at h
          subst h
          rcases List.mem_cons.mp hq with heq | htail
          · exact ⟨p, heq, by simpa using hneg⟩
          · exact ih hrest q htail

theorem walkStep_kept_no_ic_match (abspath : List String → List String)
    (R : List String) (filename : String) (ovr ic : List (Option IgnoreRule))
    (rl : RuleList) (s : List String) (t : FSDir)
    (rules : List IgnoreRule) (keptD keptF : List String)
    (hicr : ∀ o ∈ ic, ∃ r : IgnoreRule, o = some r ∧ r.negation = false)
    (hstep : walkStep abspath R filename ovr ic rl s t = .ok (rules, keptD, keptF)) :
    ∀ d ∈ keptD, ∀ r : IgnoreRule, some r ∈ ic → r.matchPath (R ++ s ++ [d]) = false := by
  intro d hd r hr
  simp only [walkStep] at hstep
  split at hstep
  · exact absurd hstep (by simp)
  · split at hstep
    · exact absurd hstep (by simp)
    · split at hstep
      · exact absurd hstep (by simp)
      · rename_i x1 rules0 hre x2 ignD hign x3 ignF hignF
        simp only [Except.ok.injEq, Prod.mk.injEq] at hstep
        obtain ⟨hrules, hkD, hkF⟩ := hstep
        rw [← hkD] at hd
        have hmem := List.mem_filter.mp hd
        have hdnames : d ∈ t.dirs.map Prod.fst := hmem.1
        have hdnig : d ∉ ignD := by
          have h2 := hmem.2
          simp at h2
          exact h2
        have hloop := excludedEntries_kept true
          ((applicableFlat ((s, rules0) :: rl) R s).map some ++ ovr ++ ic) (R ++ s)
          (t.dirs.map Prod.fst) ignD hign d hdnames hdnig
        rw [includedLoop_append] at hloop
        cases hpre : includedLoop true ((R ++ s) ++ [d]) true
            ((applicableFlat ((s, rules0) :: rl) R s).map some ++ ovr) with
        | error e => rw [hpre] at hloop; exact absurd hloop (by simp)
        | ok b =>
          rw [hpre] at hloop
          by_cases hmq : r.matchPath (R ++ s ++ [d]) = true
          · exfalso
            have hfalse := includedLoop_tail_excludes ((R ++ s) ++ [d]) ic b true
              hicr ⟨r, hr, by simpa using hmq⟩ hloop
            simp at hfalse
          · simpa using hmq

/-- Pushing the invariant "no ignore-completely rule matches any strict
descendant prefix of this directory's relative path" through the
traversal: every yielded tuple's path decomposes over the `directory`
argument and satisfies the invariant. -/
theorem walkGo_ic_safety (abspath : List String → List String)
    (directory R : List String) (filename : String)
    (ovr ic : List (Option IgnoreRule))
    (hicr : ∀ o ∈ ic, ∃ r : IgnoreRule, o = some r ∧ r.negation = false) :
    ∀ (fuel : Nat) (wl : List (List String × FSDir)) (rl : RuleList),
      (∀ st ∈ wl, ∀ s' : List String, s' ≠ [] → s' <+: st.1 →
        ∀ r : IgnoreRule, some r ∈ ic → r.matchPath (R ++ s') = false) →
      ∀ tup ∈ (walkGo abspath directory R filename ovr ic fuel rl wl).1,
        ∃ sOut, tup.1 = directory ++ sOut ∧
          (∀ s' : List String, s' ≠ [] → s' <+: sOut →
            ∀ r : IgnoreRule, some r ∈ ic → r.matchPath (R ++ s') = false) := by
  intro fuel
  induction fuel with
  | zero => intro wl rl _ tup htup; simp [walkGo] at htup
  | succ fuel ih =>
    intro wl rl hinv tup htup
    match wl with
    | [] => simp [walkGo] at htup
    | (s, t) :: rest =>
      rw [walkGo] at htup
      cases hstep : walkStep abspath R filename ovr ic rl s t with
      | error e => rw [hstep] at htup; simp at htup
      | ok v =>
        match v with
        | (rules, keptD, keptF) =>
          rw [hstep] at htup
          simp only [List.mem_cons] at htup
          rcases htup with heq | htail
          · exact ⟨s, by rw [heq], fun s' hne hpre r hr =>
              hinv (s, t) (by simp) s' hne hpre r hr⟩
          · apply ih _ ((s, rules) :: rl) ?_ tup htail
            intro st hst s' hne hpre r hr
            rcases List.mem_append.mp hst with hkid | hrest
            · obtain ⟨nd, hnd, hndeq⟩ := List.mem_map.mp hkid
              have hndk : nd.1 ∈ keptD := by
                have := List.mem_filter.mp hnd
                simpa using this.2
              have hnddirs : nd ∈ t.dirs := (List.mem_filter.mp hnd).1
              have hst1 : st.1 = s ++ [nd.1] := by rw [← hndeq]
              rw [hst1] at hpre
              rcases List.prefix_concat_iff.mp hpre with hful | hshort
              · have hda := walkStep_kept_no_ic_match abspath R filename ovr ic rl s t
                  rules keptD keptF hicr hstep nd.1 hndk r hr
                rw [hful]
                have : R ++ (s ++ [nd.1]) = R ++ s ++ [nd.1] := by
                  rw [List.append_assoc]
                rw [this]
                exact hda
              · exact hinv (s, t) (by simp) s' hne hshort r hr
            · exact hinv st (by simp [hrest]) s' hne hpre r hr

/-- C7 (confirmed): whenever some hard-exclude (ignore-completely) rule
matches a directory's path, no tuple is ever yielded for that directory or
for anything beneath it — whatever the tree's ignore files and the
overrides say (negation attempts included).  Stated contrapositively: for
every tuple `walk` yields and every nonempty relative prefix `s'` of that
tuple's path below the walk root, no successfully compiled hard-exclude
rule matches `abspath directory ++ s'`; the hard-exclude rules sit at the
very end of every chain, so a matching one always has the last word and
the subtree is pruned before it can be visited. -/
theorem c7_hard_excludes_prune (abspath : List String → List String)
    (tree : FSDir) (directory : List String) (filename : String)
    (ov : List String) (ic : Option (List String))
    (icl : List (Option IgnoreRule)) (r : IgnoreRule)
    (tup : WalkTup) (s' : List String)
    (hic : compileIgnoreCompletely abspath ic = .ok icl)
    (hr : some r ∈ icl)
    (htup : tup ∈ (walk abspath tree directory filename ov ic).1)
    (hne : s' ≠ []) (hpre : (directory ++ s') <+: tup.1) :
    r.matchPath (abspath directory ++ s') = false := by
  revert htup
  cases hov : compileOverrides abspath (abspath directory) ov with
  | error e =>
    simp only [walk, hov]
    intro htup
    simp at htup
  | ok ovr =>
    cases hfn : filterNegations icl with
    | error e2 =>
      simp only [walk, hov, hic, hfn]
      intro htup
      simp at htup
    | ok negs =>
      by_cases hnegs : negs = []
      · subst hnegs
        simp only [walk, hov, hic, hfn, ne_eq, not_true_eq_false, if_neg,
          reduceCtorEq, not_false_eq_true, if_true]
        intro htup
        have hicr := filterNegations_ok_nil icl hfn
        have hsafe := walkGo_ic_safety abspath directory (abspath directory) filename
          ovr icl hicr (tree.size + 1) [([], tree)] []
          (by
            intro st hst s2 hne2 hpre2 q hq
            simp only [List.mem_singleton] at hst
            rw [hst] at hpre2
            simp only [List.prefix_nil] at hpre2
            exact absurd hpre2 hne2)
          tup htup
        obtain ⟨sOut, htp, hprop⟩ := hsafe
        rw [htp] at hpre
        have hps : s' <+: sOut := (List.prefix_append_right_inj directory).mp hpre
        exact hprop s' hne hps r hr
      · simp only [walk, hov, hic, hfn, if_pos hnegs]
        intro htup
        simp at htup

/-- Witness for `c7_hard_excludes_prune`: the default hard-exclude `.git`
on a tree whose root holds a `.git` directory (with a file inside) and a
`src` directory, while the root's ignore file attempts `!.git`; the walk
yields only the root and `src` tuples, and the `.git` rule matches no
prefix of the `src` tuple's path. -/
theorem c7_hard_excludes_prune_witness :
    (⟨".git", ".git", false, false, false, none,
        some ("application-level override", none)⟩ : IgnoreRule).matchPath
      ((fun p : List String => p) ["r"] ++ ["src"]) = false :=
  c7_hard_excludes_prune (fun p => p)
    (.mk (.cons ".git" (.mk .nil [("HEAD", [])]) (.cons "src" (.mk .nil []) .nil))
      [(".gitignore", ["!.git"])])
    ["r"] ".gitignore" [] none
    [some ⟨".git", ".git", false, false, false, none,
      some ("application-level override", none)⟩]
    ⟨".git", ".git", false, false, false, none,
      some ("application-level override", none)⟩
    (["r", "src"], [], []) ["src"]
    rfl (by decide) (by decide) (by decide) (by decide)
